import Mathlib

/-!
Shallow embedding of the grouped time-series normalization pipeline
(`task3.py`, the IoT sensor preparation script) and of the outlier / lag
auxiliary path (`task2.py`, the financial preprocessing script).

Missing cells (pandas NaN) are modelled as `none : Option ℚ`; finite numeric
cells are rationals.  Real-valued quantities that the scripts obtain through
`sqrt` (standard deviation) or `log` live in `ℝ`.  Floating point special
values produced by numpy (`inf`, `-inf`, `nan`) are modelled by the `RVal`
type in the task2 section.
-/

namespace AIPP

/-- One input row of `iot_sensor.csv` after the numeric coercion of
`pd.to_numeric(..., errors='coerce')`: a timestamp, a sensor id and the two
measurement columns, each possibly missing. -/
structure Row where
  ts : ℤ
  sensor : ℕ
  temp : Option ℚ
  hum : Option ℚ
deriving DecidableEq, Repr

/-! ### Sorting (`df.sort_values('timestamp')`, modelled as a stable sort) -/

/-- Insert `x` after every element whose key is `≤ key x` (stable insertion). -/
def insertKey {α β : Type} [LinearOrder β] (key : α → β) (x : α) : List α → List α
  | [] => [x]
  | y :: ys => if key y ≤ key x then y :: insertKey key x ys else x :: y :: ys

/-- Stable insertion sort by `key`, scanning the input left to right. -/
def sortKey {α β : Type} [LinearOrder β] (key : α → β) (l : List α) : List α :=
  l.foldl (fun acc x => insertKey key x acc) []

/-- One concrete run of `df.sort_values('timestamp')`.  pandas' default
quicksort is not stable, so the source fixes no particular order among equal
timestamps; this model picks one legal behavior (the stable order) so that
the rest of the pipeline is an executable function.  Properties that could
depend on the tie order are stated against `IsSortedPermOf`, the contract
that every legal behavior of the sort satisfies, rather than against this
particular choice. -/
def sortByTS (l : List Row) : List Row := sortKey Row.ts l

/-- What `df.sort_values('timestamp')` (any `kind`) guarantees about its
result: a permutation of the rows that is non-decreasing in timestamp.
Nothing is promised about the relative order of equal timestamps. -/
def IsSortedPermOf (s t : List Row) : Prop :=
  List.Perm s t ∧ List.Pairwise (fun a b => a.ts ≤ b.ts) s

/-! ### Per-group imputation (lines 46–53 of task3.py) -/

/-- Worker for forward fill: `last` is the most recent non-missing value. -/
def ffillGo (last : Option ℚ) : List (Option ℚ) → List (Option ℚ)
  | [] => []
  | x :: xs =>
    match x with
    | some v => some v :: ffillGo (some v) xs
    | none => last :: ffillGo last xs

/-- `Series.ffill()` within one group: each missing entry becomes the last
prior non-missing entry of the same group (or stays missing). -/
def ffill (c : List (Option ℚ)) : List (Option ℚ) := ffillGo none c

/-- Stable insertion sort on rationals (used by median and quantile). -/
def sortQ (l : List ℚ) : List ℚ := sortKey id l

/-- pandas `median` (skipna): middle element of the sorted values, or the
average of the two middle elements; `none` on an empty list. -/
def median (l : List ℚ) : Option ℚ :=
  let s := sortQ l
  let n := s.length
  if n = 0 then none
  else if n % 2 = 1 then some (s.getD (n / 2) 0)
  else some ((s.getD (n / 2 - 1) 0 + s.getD (n / 2) 0) / 2)

/-- Replace a missing cell by the fallback `m` (`df.loc[mask, col] = medians`). -/
def fillWith (m : Option ℚ) (v : Option ℚ) : Option ℚ :=
  match v with
  | some x => some x
  | none => m

/-- Lines 46–53 of task3.py for one group column: forward fill, then fill any
remaining missing cell with the group median of the forward-filled column. -/
def imputeCol (c : List (Option ℚ)) : List (Option ℚ) :=
  (ffill c).map (fillWith (median ((ffill c).filterMap id)))

/-! ### Rolling mean and detrending (lines 63–66 of task3.py) -/

/-- pandas mean with skipna: mean of the present values, `none` if there are
none. -/
def omean (l : List (Option ℚ)) : Option ℚ :=
  let p := l.filterMap id
  if p = [] then none else some (p.sum / (p.length : ℚ))

/-- The trailing window of width `w` ending at position `i`. -/
def windowAt (w i : ℕ) (c : List (Option ℚ)) : List (Option ℚ) :=
  (c.take (i + 1)).drop (i + 1 - w)

/-- `Series.rolling(window=w, min_periods=1).mean()`: at each position the
mean of the present values in the trailing window, `none` when the window
holds no present value. -/
def rollCol (w : ℕ) (c : List (Option ℚ)) : List (Option ℚ) :=
  (List.range c.length).map (fun i => omean (windowAt w i c))

/-- Pointwise subtraction with missing-value propagation. -/
def osub : Option ℚ → Option ℚ → Option ℚ
  | some a, some b => some (a - b)
  | _, _ => none

/-- `remove_drift` (lines 63–66): detrended = column − rolling mean. -/
def detrendCol (w : ℕ) (c : List (Option ℚ)) : List (Option ℚ) :=
  List.zipWith osub c (rollCol w c)

/-! ### Per-group z-score (lines 93–107 of task3.py) -/

/-- pandas population variance (`std(ddof=0)` squared, skipna): `none` when
no value is present. -/
def pvar (l : List (Option ℚ)) : Option ℚ :=
  let p := l.filterMap id
  if p = [] then none
  else
    let m := p.sum / (p.length : ℚ)
    some ((p.map (fun x => (x - m) ^ 2)).sum / (p.length : ℚ))

/-- `Series.std(ddof=0)`: square root of the population variance; `none`
models the NaN obtained on an all-missing column. -/
noncomputable def pstd (l : List (Option ℚ)) : Option ℝ :=
  (pvar l).map (fun v => Real.sqrt ((v : ℚ) : ℝ))

/-- Lines 93–107 of task3.py for one group: if the group standard deviation
is NaN or 0 the whole z column is 0.0, otherwise each entry is
(detrended − group mean) / group std (missing entries propagate). -/
noncomputable def zscoreCol (d : List (Option ℚ)) : List (Option ℝ) :=
  match pstd d with
  | none => d.map (fun _ => some 0)
  | some s =>
    if s = 0 then d.map (fun _ => some 0)
    else d.map (fun x? => x?.map (fun x => ((x - (omean d).getD 0 : ℚ) : ℝ) / s))

/-! ### The per-group column chains, as run by the script on each sensor -/

/-- The rows of group `g` read off the sorted table `s` (the subseries that
`df.groupby('sensor_id')` hands to every per-group computation); `s` is
whichever timestamp-sorted arrangement the sort produced. -/
def groupRowsOn (s : List Row) (g : ℕ) : List Row :=
  s.filter (fun r => r.sensor = g)

/-- Imputed temperature column of group `g`. -/
def groupImputedTempOn (s : List Row) (g : ℕ) : List (Option ℚ) :=
  imputeCol ((groupRowsOn s g).map Row.temp)

/-- Imputed humidity column of group `g`. -/
def groupImputedHumOn (s : List Row) (g : ℕ) : List (Option ℚ) :=
  imputeCol ((groupRowsOn s g).map Row.hum)

/-- Rolling-mean temperature column of group `g` (ROLL_WINDOW = 6). -/
def groupRollTempOn (s : List Row) (g : ℕ) : List (Option ℚ) :=
  rollCol 6 (groupImputedTempOn s g)

/-- Rolling-mean humidity column of group `g`. -/
def groupRollHumOn (s : List Row) (g : ℕ) : List (Option ℚ) :=
  rollCol 6 (groupImputedHumOn s g)

/-- Detrended temperature column of group `g`. -/
def groupDetTempOn (s : List Row) (g : ℕ) : List (Option ℚ) :=
  detrendCol 6 (groupImputedTempOn s g)

/-- Detrended humidity column of group `g`. -/
def groupDetHumOn (s : List Row) (g : ℕ) : List (Option ℚ) :=
  detrendCol 6 (groupImputedHumOn s g)

/-- Z-scored temperature column of group `g`. -/
noncomputable def groupZTempOn (s : List Row) (g : ℕ) : List (Option ℝ) :=
  zscoreCol (groupDetTempOn s g)

/-- Z-scored humidity column of group `g`. -/
noncomputable def groupZHumOn (s : List Row) (g : ℕ) : List (Option ℝ) :=
  zscoreCol (groupDetHumOn s g)

/-! ### The whole table (reassembly by original index, lines 69–128) -/

/-- One output row of `iot_sensor_prepared.csv` (the one-hot / label-encoding
columns are outside the specified core). -/
structure OutRow where
  ts : ℤ
  sensor : ℕ
  tempRaw : Option ℚ
  humRaw : Option ℚ
  temp : Option ℚ
  hum : Option ℚ
  tempRoll : Option ℚ
  humRoll : Option ℚ
  tempDet : Option ℚ
  humDet : Option ℚ
  tempZ : Option ℝ
  humZ : Option ℝ

/-- The identifying / raw part of an output row. -/
def baseOf (o : OutRow) : Row :=
  { ts := o.ts, sensor := o.sensor, temp := o.tempRaw, hum := o.humRaw }

/-- Build the output row sitting at position `i` of the sorted table `s`:
its derived cells are the entries of its group's columns at the row's rank
inside the group (which is how `pd.concat(...).sort_index()` aligns the
per-group results back onto the table). -/
noncomputable def mkOutRow (s : List Row) (i : ℕ) (r : Row) : OutRow :=
  let g := r.sensor
  let tc := imputeCol ((s.filter (fun q => q.sensor = g)).map Row.temp)
  let hc := imputeCol ((s.filter (fun q => q.sensor = g)).map Row.hum)
  let k := ((s.take i).filter (fun q => q.sensor = g)).length
  { ts := r.ts, sensor := g, tempRaw := r.temp, humRaw := r.hum,
    temp := tc.getD k none, hum := hc.getD k none,
    tempRoll := (rollCol 6 tc).getD k none, humRoll := (rollCol 6 hc).getD k none,
    tempDet := (detrendCol 6 tc).getD k none, humDet := (detrendCol 6 hc).getD k none,
    tempZ := (zscoreCol (detrendCol 6 tc)).getD k none,
    humZ := (zscoreCol (detrendCol 6 hc)).getD k none }

/-- The prepared table computed from an already sorted row list `s`: each
row of `s`, extended with its derived columns. -/
noncomputable def flatOutputOn (s : List Row) : List OutRow :=
  s.enum.map (fun p => mkOutRow s p.1 p.2)

/-- The prepared table of the concrete model: the sorted rows, each extended
with its derived columns. -/
noncomputable def flatOutput (rows : List Row) : List OutRow :=
  ((sortByTS rows).enum).map (fun p => mkOutRow (sortByTS rows) p.1 p.2)

/-- Columns of `iot_sensor.csv` that the script reads by name. -/
inductive ColName where
  | timestamp
  | temperature
  | humidity
  | sensor_id
deriving DecidableEq, Repr

/-- Errors the script can raise on the modelled paths: a missing-column
lookup failure (pandas `KeyError`) and the `ValueError` that
`pd.concat` raises when given no objects (line 83 on an empty table). -/
inductive Err where
  | keyErr (col : ColName)
  | emptyConcat
deriving DecidableEq, Repr

/-- The input table together with its schema: flags record which of the four
named columns are present. -/
structure RawTable where
  hasTs : Bool
  hasTemp : Bool
  hasHum : Bool
  hasSensor : Bool
  rows : List Row

/-- The whole task3.py run on an in-memory table: column accesses in source
order (timestamp at line 32, temperature / humidity at lines 36–37,
sensor_id at line 46), then the grouped pipeline; `pd.concat` of the
per-group pieces fails when the table had no rows (so no groups). -/
noncomputable def script (tbl : RawTable) : Except Err (List OutRow) :=
  if tbl.hasTs = false then Except.error (Err.keyErr ColName.timestamp)
  else if tbl.hasTemp = false then Except.error (Err.keyErr ColName.temperature)
  else if tbl.hasHum = false then Except.error (Err.keyErr ColName.humidity)
  else if tbl.hasSensor = false then Except.error (Err.keyErr ColName.sensor_id)
  else if tbl.rows = [] then Except.error Err.emptyConcat
  else Except.ok (flatOutput tbl.rows)

/-! ### Task 2: quantiles, IQR outlier flag, log1p, pct_change -/

/-- pandas `Series.quantile(p)` with the default linear interpolation:
with `s` the sorted values and `h = (n−1)·p`, interpolate between the
entries at positions `⌊h⌋` and `⌊h⌋ + 1`. -/
def quantile (p : ℚ) (l : List ℚ) : ℚ :=
  let s := sortQ l
  let n := s.length
  let h : ℚ := ((n : ℚ) - 1) * p
  let i : ℕ := (⌊h⌋).toNat
  let fr : ℚ := h - (i : ℚ)
  if i + 1 < n then s.getD i 0 + fr * (s.getD (i + 1) 0 - s.getD i 0) else s.getD i 0

/-- The interpolation kernel of `quantile`, on an already sorted list and an
already scaled rank `h` (proof-side restatement of the same formula). -/
def interpAt (s : List ℚ) (h : ℚ) : ℚ :=
  let i : ℕ := (⌊h⌋).toNat
  let fr : ℚ := h - (i : ℚ)
  if i + 1 < s.length then s.getD i 0 + fr * (s.getD (i + 1) 0 - s.getD i 0)
  else s.getD i 0

/-- `Q1 = df['closing_price'].quantile(0.25)` (line 70). -/
def q1 (l : List ℚ) : ℚ := quantile (1 / 4) l

/-- `Q3 = df['closing_price'].quantile(0.75)` (line 71). -/
def q3 (l : List ℚ) : ℚ := quantile (3 / 4) l

/-- `IQR = Q3 - Q1` (line 72). -/
def iqr (l : List ℚ) : ℚ := q3 l - q1 l

/-- `lower = Q1 - 1.5 * IQR` (line 73). -/
def lowerFence (l : List ℚ) : ℚ := q1 l - 3 / 2 * iqr l

/-- `upper = Q3 + 1.5 * IQR` (line 74). -/
def upperFence (l : List ℚ) : ℚ := q3 l + 3 / 2 * iqr l

/-- Line 76: a row is flagged iff its closing price is strictly below the
lower fence or strictly above the upper fence. -/
def isOutlier (l : List ℚ) (x : ℚ) : Bool :=
  decide (x < lowerFence l) || decide (upperFence l < x)

/-- A numpy floating-point result: a finite value, an infinity, or NaN. -/
inductive RVal where
  | val (x : ℝ)
  | pinf
  | ninf
  | nan

/-- `np.log1p` (line 66): `ln (1 + x)` for `x > −1`, `-inf` at `x = −1`
(log of zero), NaN for `x < −1`; numpy warns but never raises here. -/
noncomputable def log1p (x : ℚ) : RVal :=
  if (-1 : ℚ) < x then RVal.val (Real.log ((1 + x : ℚ) : ℝ))
  else if x = -1 then RVal.ninf
  else RVal.nan

/-- IEEE division on finite operands: `a / 0` is `±inf` for `a ≠ 0` and NaN
for `a = 0`; otherwise the exact quotient. -/
noncomputable def fdiv (a b : ℚ) : RVal :=
  if b = 0 then
    if a = 0 then RVal.nan
    else if 0 < a then RVal.pinf
    else RVal.ninf
  else RVal.val ((a / b : ℚ) : ℝ)

/-- `Series.pct_change(periods=k)` (lines 61–62) on a fully imputed series:
NaN for the first `k` rows, then `(x[i] − x[i−k]) / x[i−k]` with IEEE
division semantics. -/
noncomputable def pctChange (k : ℕ) (l : List ℚ) : List RVal :=
  (List.range l.length).map (fun i =>
    if i < k then RVal.nan
    else fdiv (l.getD i 0 - l.getD (i - k) 0) (l.getD (i - k) 0))

/-- Round to two decimal places (to read the spec's displayed example
values, which are printed rounded). -/
def roundTo2 (x : ℚ) : ℚ := ((round (100 * x) : ℤ) : ℚ) / 100

/-- A one-row table holding only group 0 (concrete witness input). -/
def sampleA : List Row := [⟨0, 0, some 1, none⟩]

/-- A two-row table whose group-0 rows agree with `sampleA` and which has an
extra group-1 row (concrete witness input). -/
def sampleB : List Row := [⟨5, 1, none, some 2⟩, ⟨0, 0, some 1, none⟩]

/-- A concrete two-row input table with all columns present and timestamps
out of order (concrete witness input). -/
def sampleTbl : RawTable :=
  { hasTs := true, hasTemp := true, hasHum := true, hasSensor := true,
    rows := [⟨3, 0, some 5, some 7⟩, ⟨1, 0, some 4, none⟩] }

/-! ## Lemmas about the stable insertion sort -/

section SortLemmas

variable {α β : Type} [LinearOrder β] (key : α → β)

theorem mem_insertKey (x a : α) (l : List α) :
    a ∈ insertKey key x l ↔ a = x ∨ a ∈ l := by
  induction l with
  | nil => simp [insertKey]
  | cons y ys ih =>
    by_cases h : key y ≤ key x
    · simp only [insertKey, if_pos h, List.mem_cons, ih]
      tauto
    · simp only [insertKey, if_neg h, List.mem_cons]

theorem length_insertKey (x : α) (l : List α) :
    (insertKey key x l).length = l.length + 1 := by
  induction l with
  | nil => rfl
  | cons y ys ih =>
    by_cases h : key y ≤ key x <;> simp [insertKey, h, ih]

theorem perm_insertKey (x : α) (l : List α) :
    List.Perm (insertKey key x l) (x :: l) := by
  induction l with
  | nil => exact List.Perm.refl _
  | cons y ys ih =>
    by_cases h : key y ≤ key x
    · rw [insertKey, if_pos h]
      exact (ih.cons y).trans (List.Perm.swap x y ys)
    · rw [insertKey, if_neg h]

theorem sorted_insertKey (x : α) (l : List α)
    (hl : l.Pairwise (fun a b => key a ≤ key b)) :
    (insertKey key x l).Pairwise (fun a b => key a ≤ key b) := by
  induction l with
  | nil => simp [insertKey]
  | cons y ys ih =>
    rcases List.pairwise_cons.1 hl with ⟨hy, hys⟩
    by_cases h : key y ≤ key x
    · rw [insertKey, if_pos h]
      refine List.pairwise_cons.2 ⟨?_, ih hys⟩
      intro a ha
      rcases (mem_insertKey key x a ys).1 ha with rfl | ha
      · exact h
      · exact hy a ha
    · rw [insertKey, if_neg h]
      refine List.pairwise_cons.2 ⟨?_, hl⟩
      intro a ha
      rcases List.mem_cons.1 ha with rfl | ha
      · exact le_of_not_le h
      · exact (le_of_not_le h).trans (hy a ha)

theorem sorted_foldl_insertKey (l acc : List α)
    (hacc : acc.Pairwise (fun a b => key a ≤ key b)) :
    (l.foldl (fun acc x => insertKey key x acc) acc).Pairwise
      (fun a b => key a ≤ key b) := by
  induction l generalizing acc with
  | nil => exact hacc
  | cons x xs ih => exact ih _ (sorted_insertKey key x acc hacc)

theorem sorted_sortKey (l : List α) :
    (sortKey key l).Pairwise (fun a b => key a ≤ key b) :=
  sorted_foldl_insertKey key l [] (List.Pairwise.nil)

theorem perm_foldl_insertKey (l acc : List α) :
    List.Perm (l.foldl (fun acc x => insertKey key x acc) acc) (acc ++ l) := by
  induction l generalizing acc with
  | nil => simp
  | cons x xs ih =>
    rw [List.foldl_cons]
    refine (ih (insertKey key x acc)).trans ?_
    refine (List.Perm.append_right xs (perm_insertKey key x acc)).trans ?_
    exact List.perm_middle.symm

theorem perm_sortKey (l : List α) : List.Perm (sortKey key l) l :=
  perm_foldl_insertKey key l []

theorem length_sortKey (l : List α) : (sortKey key l).length = l.length :=
  (perm_sortKey key l).length_eq







end SortLemmas

/-! ## Lemmas about imputation (forward fill + median fallback) -/

theorem getLast?_cons_or (a : ℚ) (l : List ℚ) :
    (a :: l).getLast? = l.getLast?.or (some a) := by
  induction l generalizing a with
  | nil => rfl
  | cons b t ih =>
    rw [List.getLast?_cons_cons, ih b, Option.or_assoc]
    rfl

theorem length_ffillGo (last : Option ℚ) (c : List (Option ℚ)) :
    (ffillGo last c).length = c.length := by
  induction c generalizing last with
  | nil => rfl
  | cons x xs ih => cases x <;> simp [ffillGo, ih]

theorem length_ffill (c : List (Option ℚ)) : (ffill c).length = c.length :=
  length_ffillGo none c

theorem length_imputeCol (c : List (Option ℚ)) :
    (imputeCol c).length = c.length := by
  rw [imputeCol, List.length_map, length_ffill]

/-- The value forward fill leaves at position `i` is the last present value
among the first `i + 1` cells, or the carried-in value when there is none. -/
theorem ffillGo_getElem? (c : List (Option ℚ)) :
    ∀ (last : Option ℚ) (i : ℕ), i < c.length →
      (ffillGo last c)[i]? =
        some ((((c.take (i + 1)).filterMap id).getLast?).or last) := by
  induction c with
  | nil => intro last i h; cases h
  | cons x xs ih =>
    intro last i h
    cases i with
    | zero =>
      cases x with
      | some v => simp [ffillGo]
      | none => simp [ffillGo]
    | succ i =>
      have hi : i < xs.length := by simpa using Nat.lt_of_succ_lt_succ h
      cases x with
      | some v =>
        have hx := ih (some v) i hi
        simp only [ffillGo, List.getElem?_cons_succ, hx, List.take_succ_cons,
          List.filterMap_cons, id_eq, getLast?_cons_or, Option.or_assoc]
        rfl
      | none =>
        have hx := ih last i hi
        simp only [ffillGo, List.getElem?_cons_succ, hx, List.take_succ_cons,
          List.filterMap_cons, id_eq]

theorem ffill_getElem? (c : List (Option ℚ)) (i : ℕ) (h : i < c.length) :
    (ffill c)[i]? = some (((c.take (i + 1)).filterMap id).getLast?) := by
  rw [ffill, ffillGo_getElem? c none i h, Option.or_none]

theorem fillWith_eq_or (m v : Option ℚ) : fillWith m v = v.or m := by
  cases v <;> rfl

/-- Imputation at position `i`: the last present value among the first
`i + 1` cells if there is one, else the median of the forward-filled column. -/
theorem imputeCol_getElem? (c : List (Option ℚ)) (i : ℕ) (h : i < c.length) :
    (imputeCol c)[i]? =
      some ((((c.take (i + 1)).filterMap id).getLast?).or
        (median ((ffill c).filterMap id))) := by
  rw [imputeCol, List.getElem?_map, ffill_getElem? c i h]
  simp [fillWith_eq_or]

/-- C2: per group and value column, imputation is forward fill followed by a
median fallback for cells that are still missing. -/
theorem c2_impute_two_pass :
    (∀ (c : List (Option ℚ)) (i : ℕ) (v : ℚ), (c)[i]? = some (some v) →
      (imputeCol c)[i]? = some (some v)) ∧
    (∀ (c : List (Option ℚ)) (i : ℕ), i < c.length → (c)[i]? = some none →
      (imputeCol c)[i]? =
        some ((((c.take i).filterMap id).getLast?).or
          (median ((ffill c).filterMap id)))) ∧
    imputeCol [some 20, none, some 22, some 21, none] =
      [some 20, some 20, some 22, some 21, some 21] := by
  refine ⟨?_, ?_, ?_⟩
  · intro c i v hv
    have hi : i < c.length := by
      rcases List.getElem?_eq_some.1 hv with ⟨h, _⟩
      exact h
    rw [imputeCol_getElem? c i hi]
    have ht : c.take (i + 1) = c.take i ++ [some v] := by
      rw [List.take_succ, hv]
      rfl
    rw [ht, List.filterMap_append]
    have hone : List.filterMap id [some v] = [v] := rfl
    rw [hone, List.getLast?_concat]
    rfl
  · intro c i hi hv
    rw [imputeCol_getElem? c i hi]
    have ht : c.take (i + 1) = c.take i ++ [none] := by
      rw [List.take_succ, hv]
      rfl
    have hnil : List.filterMap id ([none] : List (Option ℚ)) = [] := rfl
    rw [ht, List.filterMap_append, hnil, List.append_nil]
  · norm_num [imputeCol, ffill, ffillGo, median, sortQ, sortKey, insertKey,
      fillWith, List.filterMap_cons, id_eq]

/-- Witness for C2 at concrete inputs: a present cell is kept, a leading
missing cell falls back to the post-fill median. -/
theorem c2_witness :
    (imputeCol [some 20, none, some 22, some 21, none])[0]? = some (some 20) ∧
    (imputeCol [none, some 3])[0]? =
      some ((((([none, some 3] : List (Option ℚ)).take 0).filterMap id).getLast?).or
        (median ((ffill [none, some 3]).filterMap id))) :=
  ⟨c2_impute_two_pass.1 [some 20, none, some 22, some 21, none] 0 20 rfl,
   c2_impute_two_pass.2.1 [none, some 3] 0 (by decide) rfl⟩

/-! ## Lemmas about the rolling mean -/

theorem filterMap_id_map_some (l : List ℚ) : (l.map some).filterMap id = l := by
  induction l with
  | nil => rfl
  | cons x xs ih => simp [ih]

theorem length_rollCol (w : ℕ) (c : List (Option ℚ)) :
    (rollCol w c).length = c.length := by
  rw [rollCol, List.length_map, List.length_range]

theorem length_detrendCol (w : ℕ) (c : List (Option ℚ)) :
    (detrendCol w c).length = c.length := by
  rw [detrendCol, List.length_zipWith, length_rollCol, min_self]

/-- The rolling mean of a fully present column, pointwise: the mean of the
trailing window of up to `w` values. -/
theorem rollCol_map_some_getElem? (w : ℕ) (c : List ℚ) (i : ℕ)
    (hw : 1 ≤ w) (hi : i < c.length) :
    (rollCol w (c.map some))[i]? =
      some (some ((((c.take (i + 1)).drop (i + 1 - w)).sum) /
        ((((c.take (i + 1)).drop (i + 1 - w)).length : ℚ)))) := by
  have hi' : i < (c.map some).length := by simpa using hi
  rw [rollCol, List.getElem?_map, List.getElem?_range hi', Option.map_some']
  have hwin : windowAt w i (c.map some) =
      ((c.take (i + 1)).drop (i + 1 - w)).map some := by
    rw [windowAt, List.map_drop, List.map_take]
  have hfm : (windowAt w i (c.map some)).filterMap id =
      (c.take (i + 1)).drop (i + 1 - w) := by
    rw [hwin, filterMap_id_map_some]
  have hWlen : ((c.take (i + 1)).drop (i + 1 - w)).length = i + 1 - (i + 1 - w) := by
    rw [List.length_drop, List.length_take]
    congr 1
    omega
  have hne : (c.take (i + 1)).drop (i + 1 - w) ≠ [] := by
    refine List.ne_nil_of_length_pos ?_
    rw [hWlen]
    omega
  simp only [omean, hfm]
  rw [if_neg hne]

/-- C3: the rolling mean is the mean of the trailing window of up to `w`
imputed values (shrinking window, at least one observation); at the first
row of a group it equals the imputed value; on the spec's example it yields
`[20, 20, 62/3, 21, 64/3]`, which prints as `[20, 20, 20.67, 21, 21.33]`
when rounded to two decimals. -/
theorem c3_rolling_mean :
    (∀ (w : ℕ) (c : List ℚ) (i : ℕ), 1 ≤ w → i < c.length →
      (rollCol w (c.map some))[i]? =
        some (some ((((c.take (i + 1)).drop (i + 1 - w)).sum) /
          ((((c.take (i + 1)).drop (i + 1 - w)).length : ℚ))))) ∧
    (∀ (w : ℕ) (x : ℚ) (xs : List ℚ), 1 ≤ w →
      (rollCol w ((x :: xs).map some))[0]? = some (some x)) ∧
    rollCol 3 ([20, 20, 22, 21, 21].map some) =
      [some 20, some 20, some (62/3), some 21, some (64/3)] ∧
    (rollCol 3 ([20, 20, 22, 21, 21].map some)).map (Option.map roundTo2) =
      [some 20, some 20, some 20.67, some 21, some 21.33] := by
  refine ⟨fun w c i hw hi => rollCol_map_some_getElem? w c i hw hi, ?_, ?_, ?_⟩
  · intro w x xs hw
    have h0 := rollCol_map_some_getElem? w (x :: xs) 0 hw (by simp)
    have hwin : (((x :: xs).take 1).drop (1 - w)) = [x] := by
      have h10 : 1 - w = 0 := by omega
      rw [h10]
      rfl
    rw [h0, hwin]
    norm_num
  · norm_num [rollCol, windowAt, omean, List.range_succ, List.filterMap_cons, id_eq]
    simp
  · norm_num [rollCol, windowAt, omean, List.range_succ, List.filterMap_cons,
      id_eq, roundTo2, round_eq]
    simp
    norm_num

/-- Witness for C3: the window-mean formula applied at a concrete list and
index. -/
theorem c3_witness :
    (rollCol 3 ([1, 5].map some))[1]? =
      some (some (((([1, 5] : List ℚ).take 2).drop 0).sum /
        (((([1, 5] : List ℚ).take 2).drop 0).length : ℚ))) :=
  c3_rolling_mean.1 3 [1, 5] 1 (by norm_num) (by norm_num)

/-! ## Lemmas about group statistics and the z-score -/

theorem pvar_nonneg (l : List (Option ℚ)) (v : ℚ) (h : pvar l = some v) : 0 ≤ v := by
  by_cases hp : l.filterMap id = []
  · simp [pvar, hp] at h
  · simp only [pvar, if_neg hp] at h
    obtain rfl := (Option.some_injective ℚ h).symm
    apply div_nonneg
    · apply List.sum_nonneg
      intro x hx
      rcases List.mem_map.1 hx with ⟨y, _, rfl⟩
      exact sq_nonneg _
    · positivity

theorem pstd_none_iff (l : List (Option ℚ)) : pstd l = none ↔ pvar l = none := by
  rw [pstd]
  exact Option.map_eq_none'

theorem pstd_some_zero_iff (l : List (Option ℚ)) :
    pstd l = some 0 ↔ pvar l = some 0 := by
  constructor
  · intro h
    rcases Option.map_eq_some'.1 h with ⟨v, hv, hs⟩
    have hv0 : (0 : ℝ) ≤ (v : ℝ) := by
      exact_mod_cast pvar_nonneg l v hv
    have : ((v : ℚ) : ℝ) ≤ 0 := Real.sqrt_eq_zero'.1 hs
    have hveq : (v : ℚ) = 0 := by exact_mod_cast le_antisymm this hv0
    rw [hv, hveq]
  · intro h
    rw [pstd, h]
    simp

theorem zipWith_osub_none_left (a b : List (Option ℚ)) (ha : ∀ x ∈ a, x = none) :
    ∀ z ∈ List.zipWith osub a b, z = none := by
  induction a generalizing b with
  | nil => intro z hz; simp at hz
  | cons x xs ih =>
    cases b with
    | nil => intro z hz; simp at hz
    | cons y ys =>
      intro z hz
      rcases List.mem_cons.1 hz with rfl | hz
      · rw [ha x (List.mem_cons_self x xs)]
        cases y <;> rfl
      · exact ih ys (fun t ht => ha t (List.mem_cons_of_mem x ht)) z hz

theorem zipWith_osub_none_right (a b : List (Option ℚ)) (hb : ∀ x ∈ b, x = none) :
    ∀ z ∈ List.zipWith osub a b, z = none := by
  induction a generalizing b with
  | nil => intro z hz; simp at hz
  | cons x xs ih =>
    cases b with
    | nil => intro z hz; simp at hz
    | cons y ys =>
      intro z hz
      rcases List.mem_cons.1 hz with rfl | hz
      · rw [hb y (List.mem_cons_self y ys)]
        cases x <;> rfl
      · exact ih ys (fun t ht => hb t (List.mem_cons_of_mem y ht)) z hz

theorem zipWith_osub_isSome (a b : List (Option ℚ))
    (ha : ∀ x ∈ a, x.isSome) (hb : ∀ x ∈ b, x.isSome) :
    ∀ z ∈ List.zipWith osub a b, z.isSome := by
  induction a generalizing b with
  | nil => intro z hz; simp at hz
  | cons x xs ih =>
    cases b with
    | nil => intro z hz; simp at hz
    | cons y ys =>
      intro z hz
      rcases List.mem_cons.1 hz with rfl | hz
      · rcases Option.isSome_iff_exists.1 (ha x (List.mem_cons_self x xs)) with ⟨u, rfl⟩
        rcases Option.isSome_iff_exists.1 (hb y (List.mem_cons_self y ys)) with ⟨v, rfl⟩
        rfl
      · exact ih ys (fun t ht => ha t (List.mem_cons_of_mem x ht))
          (fun t ht => hb t (List.mem_cons_of_mem y ht)) z hz

theorem ffillGo_all_none (c : List (Option ℚ)) (h : ∀ x ∈ c, x = none) :
    ffillGo none c = c := by
  induction c with
  | nil => rfl
  | cons x xs ih =>
    have hx : x = none := h x (List.mem_cons_self x xs)
    subst hx
    rw [ffillGo, ih (fun t ht => h t (List.mem_cons_of_mem none ht))]

theorem imputeCol_all_none (c : List (Option ℚ)) (h : ∀ x ∈ c, x = none) :
    ∀ y ∈ imputeCol c, y = none := by
  have hff : ffill c = c := ffillGo_all_none c h
  intro y hy
  rw [imputeCol, hff] at hy
  have hfm : c.filterMap id = [] :=
    List.filterMap_eq_nil.2 (fun a ha => by rw [h a ha]; rfl)
  rcases List.mem_map.1 hy with ⟨x, hx, rfl⟩
  rw [h x hx, hfm]
  rfl

theorem mem_ffillGo_some (c : List (Option ℚ)) :
    ∀ (last : Option ℚ) (v : ℚ), some v ∈ c → some v ∈ ffillGo last c := by
  induction c with
  | nil => intro last v hv; cases hv
  | cons x xs ih =>
    intro last v hv
    rcases List.mem_cons.1 hv with hx | hv2
    · rw [← hx, ffillGo]
      exact List.mem_cons_self _ _
    · cases x with
      | some u => exact List.mem_cons_of_mem _ (ih (some u) v hv2)
      | none => exact List.mem_cons_of_mem _ (ih last v hv2)

theorem median_isSome (l : List ℚ) (h : l ≠ []) : ∃ m, median l = some m := by
  have hn : (sortQ l).length = l.length := length_sortKey id l
  have hne : ¬ (sortQ l).length = 0 := by
    rw [hn]
    exact fun h0 => h (List.length_eq_zero.1 h0)
  simp only [median]
  rw [if_neg hne]
  by_cases hodd : (sortQ l).length % 2 = 1
  · rw [if_pos hodd]
    exact ⟨_, rfl⟩
  · rw [if_neg hodd]
    exact ⟨_, rfl⟩

theorem imputeCol_all_isSome (c : List (Option ℚ)) (h : ∃ v : ℚ, some v ∈ c) :
    ∀ y ∈ imputeCol c, y.isSome := by
  rcases h with ⟨v, hv⟩
  have hvf : some v ∈ ffill c := mem_ffillGo_some c none v hv
  have hmem : v ∈ (ffill c).filterMap id := List.mem_filterMap.2 ⟨some v, hvf, rfl⟩
  have hne : (ffill c).filterMap id ≠ [] := List.ne_nil_of_mem hmem
  rcases median_isSome _ hne with ⟨m, hmed⟩
  intro y hy
  rw [imputeCol, hmed] at hy
  rcases List.mem_map.1 hy with ⟨x, _, rfl⟩
  cases x <;> simp [fillWith]

theorem mem_windowAt (w i : ℕ) (c : List (Option ℚ)) (x : Option ℚ)
    (hx : x ∈ windowAt w i c) : x ∈ c :=
  List.mem_of_mem_take (List.mem_of_mem_drop hx)

theorem rollCol_all_isSome (w : ℕ) (c : List (Option ℚ)) (hw : 1 ≤ w)
    (h : ∀ x ∈ c, x.isSome) : ∀ y ∈ rollCol w c, y.isSome := by
  intro y hy
  rw [rollCol] at hy
  rcases List.mem_map.1 hy with ⟨i, hi, rfl⟩
  have hi' : i < c.length := List.mem_range.1 hi
  have hlen : (windowAt w i c).length = i + 1 - (i + 1 - w) := by
    rw [windowAt, List.length_drop, List.length_take]
    congr 1
    omega
  have hpos : 0 < (windowAt w i c).length := by
    rw [hlen]
    omega
  obtain ⟨x, hx⟩ := List.exists_mem_of_length_pos hpos
  rcases Option.isSome_iff_exists.1 (h x (mem_windowAt w i c x hx)) with ⟨v, rfl⟩
  have hv : v ∈ (windowAt w i c).filterMap id :=
    List.mem_filterMap.2 ⟨some v, hx, rfl⟩
  have hne : (windowAt w i c).filterMap id ≠ [] := List.ne_nil_of_mem hv
  simp only [omean]
  rw [if_neg hne]
  rfl

theorem rollCol_all_none (w : ℕ) (c : List (Option ℚ))
    (hwc : w = 0 ∨ ∀ x ∈ c, x = none) : ∀ y ∈ rollCol w c, y = none := by
  intro y hy
  rw [rollCol] at hy
  rcases List.mem_map.1 hy with ⟨i, _, rfl⟩
  have hnil : (windowAt w i c).filterMap id = [] := by
    rcases hwc with rfl | hall
    · have hempty : windowAt 0 i c = [] := by
        rw [windowAt]
        exact List.drop_eq_nil_of_le (by simpa using List.length_take_le (i + 1) c)
      rw [hempty]
      rfl
    · exact List.filterMap_eq_nil.2
        (fun a ha => by rw [hall a (mem_windowAt w i c a ha)]; rfl)
  simp only [omean]
  rw [hnil, if_pos rfl]

/-- The detrended column a group feeds to the z-score step is either fully
present or fully missing. -/
theorem detrend_dichotomy (w : ℕ) (c : List (Option ℚ)) :
    (∀ x ∈ detrendCol w (imputeCol c), x.isSome) ∨
    (∀ x ∈ detrendCol w (imputeCol c), x = none) := by
  by_cases hall : ∀ x ∈ c, x = none
  · right
    intro x hx
    exact zipWith_osub_none_left _ _ (imputeCol_all_none c hall) x hx
  · have hex : ∃ v : ℚ, some v ∈ c := by
      push_neg at hall
      rcases hall with ⟨x, hx, hxne⟩
      cases x with
      | none => exact absurd rfl hxne
      | some v => exact ⟨v, hx⟩
    rcases Nat.eq_zero_or_pos w with h0 | hpos
    · right
      intro x hx
      subst h0
      exact zipWith_osub_none_right _ _
        (rollCol_all_none 0 _ (Or.inl rfl)) x hx
    · left
      intro x hx
      exact zipWith_osub_isSome _ _ (imputeCol_all_isSome c hex)
        (rollCol_all_isSome w _ hpos (imputeCol_all_isSome c hex)) x hx

/-- Whatever the group column, the z-score step of the pipeline never leaves
a missing entry. -/
theorem zscore_pipeline_isSome (w : ℕ) (c : List (Option ℚ)) :
    ∀ z ∈ zscoreCol (detrendCol w (imputeCol c)), z.isSome := by
  intro z hz
  rcases detrend_dichotomy w c with hsome | hnone
  · cases hps : pstd (detrendCol w (imputeCol c)) with
    | none =>
      simp only [zscoreCol, hps] at hz
      rcases List.mem_map.1 hz with ⟨_, _, rfl⟩
      rfl
    | some s =>
      by_cases hs0 : s = 0
      · subst hs0
        simp only [zscoreCol, hps, if_pos rfl] at hz
        rcases List.mem_map.1 hz with ⟨_, _, rfl⟩
        rfl
      · simp only [zscoreCol, hps] at hz
        rw [if_neg hs0] at hz
        rcases List.mem_map.1 hz with ⟨x?, hx?, rfl⟩
        rcases Option.isSome_iff_exists.1 (hsome x? hx?) with ⟨v, rfl⟩
        rfl
  · have hfm : (detrendCol w (imputeCol c)).filterMap id = [] :=
      List.filterMap_eq_nil.2 (fun a ha => by rw [hnone a ha]; rfl)
    have hpv : pvar (detrendCol w (imputeCol c)) = none := by
      simp [pvar, hfm]
    have hps : pstd (detrendCol w (imputeCol c)) = none := by
      rw [pstd, hpv]
      rfl
    simp only [zscoreCol, hps] at hz
    rcases List.mem_map.1 hz with ⟨_, _, rfl⟩
    rfl

theorem length_zscoreCol (d : List (Option ℚ)) :
    (zscoreCol d).length = d.length := by
  cases hps : pstd d with
  | none => simp [zscoreCol, hps]
  | some s => by_cases h : s = 0 <;> simp [zscoreCol, hps, h]

/-- A row at position `i` of the table has rank strictly below the size of
its group. -/
theorem rank_lt_filter_length (s : List Row) (i : ℕ) (r : Row)
    (hir : (s)[i]? = some r) (p : Row → Bool) (hp : p r = true) :
    ((s.take i).filter p).length < (s.filter p).length := by
  have hi : i < s.length := by
    rcases List.getElem?_eq_some.1 hir with ⟨h, _⟩
    exact h
  have hdrop : s.drop i = r :: s.drop (i + 1) := by
    have hd := List.drop_eq_getElem_cons hi
    rcases List.getElem?_eq_some.1 hir with ⟨h, hr⟩
    rw [hd, hr]
  have hsplit : s.filter p = (s.take i).filter p ++ (s.drop i).filter p := by
    rw [← List.filter_append, List.take_append_drop]
  rw [hsplit, hdrop, List.filter_cons_of_pos hp, List.length_append,
    List.length_cons]
  omega

/-- C1: per group, a zero or undefined (NaN) standard deviation of the
detrended values forces every z-score of the group to 0.0; otherwise each
z-score is (detrended − group mean) / group std; and through the pipeline the
z-score is a (finite) number on every row of the output table, for both the
temperature and the humidity columns. -/
theorem c1_zscore_normalization :
    (∀ d : List (Option ℚ), pstd d = none ∨ pstd d = some 0 →
      zscoreCol d = d.map (fun _ => some 0)) ∧
    (∀ (d : List (Option ℚ)) (s : ℝ) (m : ℚ) (i : ℕ) (x : ℚ),
      pstd d = some s → s ≠ 0 → omean d = some m → (d)[i]? = some (some x) →
      (zscoreCol d)[i]? = some (some (((x - m : ℚ) : ℝ) / s))) ∧
    (∀ (w : ℕ) (c : List (Option ℚ)),
      ∀ z ∈ zscoreCol (detrendCol w (imputeCol c)), z.isSome) ∧
    (∀ rows : List Row, ∀ o ∈ flatOutput rows, o.tempZ.isSome ∧ o.humZ.isSome) := by
  refine ⟨?_, ?_, zscore_pipeline_isSome, ?_⟩
  · intro d hd
    rcases hd with hd | hd
    · simp [zscoreCol, hd]
    · simp [zscoreCol, hd]
  · intro d s m i x hs hsne hm hd
    simp only [zscoreCol, hs]
    rw [if_neg hsne, List.getElem?_map, hd]
    simp [hm]
  · intro rows o ho
    rw [flatOutput] at ho
    rcases List.mem_map.1 ho with ⟨⟨i, r⟩, hir, rfl⟩
    have hg : (sortByTS rows)[i]? = some r := List.mk_mem_enum_iff_getElem?.1 hir
    have hrank := rank_lt_filter_length (sortByTS rows) i r hg
      (fun q => q.sensor = r.sensor) (by simp)
    have hkt : (((sortByTS rows).take i).filter
        (fun q => q.sensor = r.sensor)).length <
        (zscoreCol (detrendCol 6 (imputeCol
          (((sortByTS rows).filter (fun q => q.sensor = r.sensor)).map
            Row.temp)))).length := by
      rw [length_zscoreCol, length_detrendCol, length_imputeCol,
        List.length_map]
      exact hrank
    have hkh : (((sortByTS rows).take i).filter
        (fun q => q.sensor = r.sensor)).length <
        (zscoreCol (detrendCol 6 (imputeCol
          (((sortByTS rows).filter (fun q => q.sensor = r.sensor)).map
            Row.hum)))).length := by
      rw [length_zscoreCol, length_detrendCol, length_imputeCol,
        List.length_map]
      exact hrank
    simp only [mkOutRow]
    constructor
    · rw [List.getD_eq_getElem _ none hkt]
      exact zscore_pipeline_isSome 6 _ _ (List.getElem_mem hkt)
    · rw [List.getD_eq_getElem _ none hkh]
      exact zscore_pipeline_isSome 6 _ _ (List.getElem_mem hkh)

/-- Witness for C1: a single-row group has standard deviation 0, so its
z-score column is [0.0]. -/
theorem c1_witness : zscoreCol [some (1 : ℚ)] = [some 0] := by
  have hv : pvar [some (1 : ℚ)] = some 0 := by
    norm_num [pvar, List.filterMap_cons, id_eq]
  have hs : pstd [some (1 : ℚ)] = some 0 := by
    rw [pstd, hv]
    simp
  simpa using c1_zscore_normalization.1 [some (1 : ℚ)] (Or.inr hs)

/-! ## Group isolation (C4) -/

/-- The sort contract is satisfied by the concrete model. -/
theorem isSortedPermOf_sortByTS (t : List Row) : IsSortedPermOf (sortByTS t) t :=
  ⟨perm_sortKey Row.ts t, sorted_sortKey Row.ts t⟩

/-- A timestamp-sorted arrangement of rows with pairwise distinct timestamps
is unique. -/
theorem sorted_perm_eq_of_nodup_ts :
    ∀ (l1 l2 : List Row), List.Perm l1 l2 →
      List.Pairwise (fun a b : Row => a.ts ≤ b.ts) l1 →
      List.Pairwise (fun a b : Row => a.ts ≤ b.ts) l2 →
      (l1.map Row.ts).Nodup → l1 = l2 := by
  intro l1
  induction l1 with
  | nil =>
    intro l2 hp _ _ _
    exact (hp.symm.eq_nil).symm
  | cons a t1 ih =>
    intro l2 hp hs1 hs2 hnd
    cases l2 with
    | nil =>
      have hlen := hp.length_eq
      simp at hlen
    | cons b t2 =>
      by_cases hab : a = b
      · subst hab
        have hp' : List.Perm t1 t2 := hp.cons_inv
        have hndt : (t1.map Row.ts).Nodup := by
          rw [List.map_cons] at hnd
          exact (List.nodup_cons.1 hnd).2
        rw [ih t2 hp' (List.pairwise_cons.1 hs1).2 (List.pairwise_cons.1 hs2).2 hndt]
      · exfalso
        have ha2 : a ∈ b :: t2 := hp.subset (List.mem_cons_self a t1)
        have hb1 : b ∈ a :: t1 := hp.symm.subset (List.mem_cons_self b t2)
        have hat2 : a ∈ t2 := by
          rcases List.mem_cons.1 ha2 with h | h
          · exact absurd h hab
          · exact h
        have hbt1 : b ∈ t1 := by
          rcases List.mem_cons.1 hb1 with h | h
          · exact absurd h.symm hab
          · exact h
        have h1 : a.ts ≤ b.ts := (List.pairwise_cons.1 hs1).1 b hbt1
        have h2 : b.ts ≤ a.ts := (List.pairwise_cons.1 hs2).1 a hat2
        have heq : b.ts = a.ts := le_antisymm h2 h1
        have hmem : a.ts ∈ t1.map Row.ts := by
          rw [← heq]
          exact List.mem_map_of_mem Row.ts hbt1
        have hnmem : ¬ a.ts ∈ t1.map Row.ts := by
          rw [List.map_cons] at hnd
          exact (List.nodup_cons.1 hnd).1
        exact hnmem hmem

/-- C4 counterexample: the sort contract allows two different orders for a
group with duplicate timestamps, and they yield different imputed columns for
that group — so the derived columns are not a function of the group's rows
under the code's (unstable) sort. -/
theorem c4_counterexample :
    ¬ (∀ s1 s2 : List Row,
        IsSortedPermOf s1 [⟨0, 0, some 1, none⟩, ⟨0, 0, some 2, none⟩] →
        IsSortedPermOf s2 [⟨0, 0, some 1, none⟩, ⟨0, 0, some 2, none⟩] →
        groupImputedTempOn s1 0 = groupImputedTempOn s2 0) := by
  intro h
  have h1 : IsSortedPermOf [⟨0, 0, some 1, none⟩, ⟨0, 0, some 2, none⟩]
      [⟨0, 0, some 1, none⟩, ⟨0, 0, some 2, none⟩] :=
    ⟨List.Perm.refl _, by decide⟩
  have h2 : IsSortedPermOf [⟨0, 0, some 2, none⟩, ⟨0, 0, some 1, none⟩]
      [⟨0, 0, some 1, none⟩, ⟨0, 0, some 2, none⟩] :=
    ⟨List.Perm.swap _ _ _, by decide⟩
  exact absurd (h _ _ h1 h2) (by decide)

/-- C4 (amended): provided the group's rows carry pairwise distinct
timestamps, every legal timestamp-sorted reordering places them identically,
so two inputs agreeing on a group's rows yield the same imputed,
rolling-mean, detrended and z-score columns for that group — whatever the
sort does to the rest of the table. -/
theorem c4_group_isolation_distinct_ts :
    ∀ (t1 t2 s1 s2 : List Row) (g : ℕ),
      t1.filter (fun r => r.sensor = g) = t2.filter (fun r => r.sensor = g) →
      ((t1.filter (fun r => r.sensor = g)).map Row.ts).Nodup →
      IsSortedPermOf s1 t1 → IsSortedPermOf s2 t2 →
      groupRowsOn s1 g = groupRowsOn s2 g ∧
      groupImputedTempOn s1 g = groupImputedTempOn s2 g ∧
      groupImputedHumOn s1 g = groupImputedHumOn s2 g ∧
      groupRollTempOn s1 g = groupRollTempOn s2 g ∧
      groupRollHumOn s1 g = groupRollHumOn s2 g ∧
      groupDetTempOn s1 g = groupDetTempOn s2 g ∧
      groupDetHumOn s1 g = groupDetHumOn s2 g ∧
      groupZTempOn s1 g = groupZTempOn s2 g ∧
      groupZHumOn s1 g = groupZHumOn s2 g := by
  intro t1 t2 s1 s2 g hfil hnd h1 h2
  have e1 : List.Perm (s1.filter (fun r => r.sensor = g))
      (t1.filter (fun r => r.sensor = g)) := List.Perm.filter _ h1.1
  have e2 : List.Perm (s2.filter (fun r => r.sensor = g))
      (t2.filter (fun r => r.sensor = g)) := List.Perm.filter _ h2.1
  have hperm : List.Perm (s1.filter (fun r => r.sensor = g))
      (s2.filter (fun r => r.sensor = g)) := by
    refine e1.trans ?_
    rw [hfil]
    exact e2.symm
  have hg : groupRowsOn s1 g = groupRowsOn s2 g := by
    rw [groupRowsOn, groupRowsOn]
    refine sorted_perm_eq_of_nodup_ts _ _ hperm
      (List.Pairwise.filter _ h1.2) (List.Pairwise.filter _ h2.2) ?_
    have hmap : List.Perm ((s1.filter (fun r => r.sensor = g)).map Row.ts)
        ((t1.filter (fun r => r.sensor = g)).map Row.ts) := e1.map Row.ts
    exact (hmap.nodup_iff).2 hnd
  refine ⟨hg, ?_, ?_, ?_, ?_, ?_, ?_, ?_, ?_⟩ <;>
    simp [groupImputedTempOn, groupImputedHumOn, groupRollTempOn,
      groupRollHumOn, groupDetTempOn, groupDetHumOn, groupZTempOn,
      groupZHumOn, hg]

/-- Witness for the amended C4: adding a group-1 row leaves all of group 0's
derived columns unchanged, for the concrete sorted arrangements. -/
theorem c4_witness :
    groupRowsOn (sortByTS sampleA) 0 = groupRowsOn (sortByTS sampleB) 0 ∧
    groupImputedTempOn (sortByTS sampleA) 0 = groupImputedTempOn (sortByTS sampleB) 0 ∧
    groupImputedHumOn (sortByTS sampleA) 0 = groupImputedHumOn (sortByTS sampleB) 0 ∧
    groupRollTempOn (sortByTS sampleA) 0 = groupRollTempOn (sortByTS sampleB) 0 ∧
    groupRollHumOn (sortByTS sampleA) 0 = groupRollHumOn (sortByTS sampleB) 0 ∧
    groupDetTempOn (sortByTS sampleA) 0 = groupDetTempOn (sortByTS sampleB) 0 ∧
    groupDetHumOn (sortByTS sampleA) 0 = groupDetHumOn (sortByTS sampleB) 0 ∧
    groupZTempOn (sortByTS sampleA) 0 = groupZTempOn (sortByTS sampleB) 0 ∧
    groupZHumOn (sortByTS sampleA) 0 = groupZHumOn (sortByTS sampleB) 0 :=
  c4_group_isolation_distinct_ts sampleA sampleB (sortByTS sampleA)
    (sortByTS sampleB) 0 (by decide) (by decide)
    (isSortedPermOf_sortByTS sampleA) (isSortedPermOf_sortByTS sampleB)

/-! ## Shape and order of the whole output table (C5–C7) -/

theorem map_baseOf_flatOutputOn (s : List Row) :
    (flatOutputOn s).map baseOf = s := by
  rw [flatOutputOn, List.map_map]
  have hpt : baseOf ∘ (fun p : ℕ × Row => mkOutRow s p.1 p.2) = Prod.snd := by
    funext p
    rfl
  rw [hpt, List.enum_map_snd]

theorem pairwise_flatOutputOn (s : List Row)
    (hs : List.Pairwise (fun a b : Row => a.ts ≤ b.ts) s) :
    List.Pairwise (fun a b : OutRow => a.ts ≤ b.ts) (flatOutputOn s) := by
  have hs' : (s.enum.map Prod.snd).Pairwise (fun a b => a.ts ≤ b.ts) := by
    rw [List.enum_map_snd]
    exact hs
  have h2 := List.pairwise_map.1 hs'
  rw [flatOutputOn]
  exact List.pairwise_map.2 h2

theorem flatOutput_eq_flatOutputOn (rows : List Row) :
    flatOutput rows = flatOutputOn (sortByTS rows) := rfl

/-- C5 counterexample: on a table with two rows of equal timestamp, the sort
contract admits an output whose rows are NOT in original input order — the
claimed tie-break is not established by the code's (unstable) sort. -/
theorem c5_counterexample :
    ¬ (∀ s : List Row,
        IsSortedPermOf s [⟨0, 0, some 1, none⟩, ⟨0, 1, some 2, none⟩] →
        (flatOutputOn s).map baseOf =
          [⟨0, 0, some 1, none⟩, ⟨0, 1, some 2, none⟩]) := by
  intro h
  have hs : IsSortedPermOf [⟨0, 1, some 2, none⟩, ⟨0, 0, some 1, none⟩]
      [⟨0, 0, some 1, none⟩, ⟨0, 1, some 2, none⟩] :=
    ⟨List.Perm.swap _ _ _, by decide⟩
  have hout := h _ hs
  rw [map_baseOf_flatOutputOn] at hout
  exact absurd hout (by decide)

/-- C5 (amended): whatever timestamp-sorted arrangement the sort produces,
the output has exactly one row per input row (a permutation of the input)
and is ordered by timestamp ascending, staying in that sorted order; the
script emits the output of one such arrangement.  The order among equal
timestamps is whichever the sort chose, not necessarily the input order. -/
theorem c5_shape_and_order :
    (∀ (t s : List Row), IsSortedPermOf s t →
      (flatOutputOn s).length = t.length ∧
      (flatOutputOn s).map baseOf = s ∧
      List.Pairwise (fun a b : OutRow => a.ts ≤ b.ts) (flatOutputOn s) ∧
      List.Perm ((flatOutputOn s).map baseOf) t) ∧
    (∀ tbl : RawTable, tbl.hasTs = true → tbl.hasTemp = true →
      tbl.hasHum = true → tbl.hasSensor = true → tbl.rows ≠ [] →
      script tbl = Except.ok (flatOutputOn (sortByTS tbl.rows)) ∧
      IsSortedPermOf (sortByTS tbl.rows) tbl.rows) := by
  constructor
  · intro t s hst
    refine ⟨?_, map_baseOf_flatOutputOn s, pairwise_flatOutputOn s hst.2, ?_⟩
    · rw [flatOutputOn, List.length_map, List.enum_length]
      exact hst.1.length_eq
    · rw [map_baseOf_flatOutputOn]
      exact hst.1
  · intro tbl h1 h2 h3 h4 h5
    refine ⟨?_, isSortedPermOf_sortByTS tbl.rows⟩
    rw [← flatOutput_eq_flatOutputOn]
    simp [script, h1, h2, h3, h4, h5]

/-- Witness for the amended C5 on a concrete two-row unsorted table. -/
theorem c5_witness :
    ((flatOutputOn (sortByTS sampleTbl.rows)).length = sampleTbl.rows.length ∧
      (flatOutputOn (sortByTS sampleTbl.rows)).map baseOf = sortByTS sampleTbl.rows ∧
      List.Pairwise (fun a b : OutRow => a.ts ≤ b.ts)
        (flatOutputOn (sortByTS sampleTbl.rows)) ∧
      List.Perm ((flatOutputOn (sortByTS sampleTbl.rows)).map baseOf)
        sampleTbl.rows) ∧
    (script sampleTbl = Except.ok (flatOutputOn (sortByTS sampleTbl.rows)) ∧
      IsSortedPermOf (sortByTS sampleTbl.rows) sampleTbl.rows) :=
  ⟨c5_shape_and_order.1 sampleTbl.rows (sortByTS sampleTbl.rows)
      (isSortedPermOf_sortByTS sampleTbl.rows),
    c5_shape_and_order.2 sampleTbl rfl rfl rfl rfl (by decide)⟩

/-- C6 counterexample: on a zero-row table with the full schema the script
does NOT return an output table — `pd.concat` of the zero per-group pieces
raises instead. -/
theorem c6_counterexample :
    ¬ ∃ out : List OutRow,
      script ⟨true, true, true, true, []⟩ = Except.ok out := by
  rintro ⟨out, hout⟩
  simp [script] at hout

/-- C6 (amended): on a zero-row input with all columns present, the script
raises the concatenation error rather than returning an empty table. -/
theorem c6_empty_input_raises :
    ∀ tbl : RawTable, tbl.hasTs = true → tbl.hasTemp = true → tbl.hasHum = true →
      tbl.hasSensor = true → tbl.rows = [] →
      script tbl = Except.error Err.emptyConcat := by
  intro tbl h1 h2 h3 h4 h5
  simp [script, h1, h2, h3, h4, h5]

/-- Witness for the amended C6. -/
theorem c6_witness :
    script ⟨true, true, true, true, ([] : List Row)⟩ = Except.error Err.emptyConcat :=
  c6_empty_input_raises _ rfl rfl rfl rfl rfl

/-- C7: a missing group-key or value column makes the script fail with a
missing-column error, and no output table is produced. -/
theorem c7_missing_column_error :
    ∀ tbl : RawTable,
      (tbl.hasSensor = false ∨ tbl.hasTemp = false ∨ tbl.hasHum = false) →
      (∃ c : ColName, script tbl = Except.error (Err.keyErr c)) ∧
      (∀ out : List OutRow, script tbl ≠ Except.ok out) := by
  intro tbl h
  have hx : ∃ c : ColName, script tbl = Except.error (Err.keyErr c) := by
    cases hts : tbl.hasTs with
    | false => exact ⟨ColName.timestamp, by simp [script, hts]⟩
    | true =>
      cases htemp : tbl.hasTemp with
      | false => exact ⟨ColName.temperature, by simp [script, hts, htemp]⟩
      | true =>
        cases hhum : tbl.hasHum with
        | false => exact ⟨ColName.humidity, by simp [script, hts, htemp, hhum]⟩
        | true =>
          have hsen : tbl.hasSensor = false := by
            rcases h with h | h | h
            · exact h
            · rw [htemp] at h
              exact Bool.noConfusion h
            · rw [hhum] at h
              exact Bool.noConfusion h
          exact ⟨ColName.sensor_id, by simp [script, hts, htemp, hhum, hsen]⟩
  refine ⟨hx, ?_⟩
  rcases hx with ⟨c, hc⟩
  intro out hout
  rw [hc] at hout
  cases hout

/-- Witness for C7: a table lacking the humidity column fails with a
missing-column error and yields no output. -/
theorem c7_witness :
    (∃ c : ColName, script ⟨true, true, false, true, ([] : List Row)⟩ =
      Except.error (Err.keyErr c)) ∧
    (∀ out : List OutRow, script ⟨true, true, false, true, ([] : List Row)⟩ ≠
      Except.ok out) :=
  c7_missing_column_error _ (Or.inr (Or.inr rfl))

/-! ## Task 2: quantiles and the IQR outlier flag (C8) -/

theorem sorted_sortQ (l : List ℚ) : (sortQ l).Pairwise (· ≤ ·) := by
  have h := sorted_sortKey id l
  simpa using h

theorem sorted_getD_mono (s : List ℚ) (hs : s.Pairwise (· ≤ ·)) (a b : ℕ)
    (hab : a ≤ b) (hb : b < s.length) : s.getD a 0 ≤ s.getD b 0 := by
  rcases eq_or_lt_of_le hab with rfl | hlt
  · exact le_refl _
  · have ha : a < s.length := lt_trans hlt hb
    rw [List.getD_eq_getElem s 0 ha, List.getD_eq_getElem s 0 hb]
    exact List.pairwise_iff_get.1 hs ⟨a, ha⟩ ⟨b, hb⟩ hlt

theorem quantile_eq_interpAt (p : ℚ) (l : List ℚ) :
    quantile p l = interpAt (sortQ l) ((((sortQ l).length : ℚ) - 1) * p) := rfl

theorem interpAt_le_interpAt (s : List ℚ) (hs : s.Pairwise (· ≤ ·)) (h h' : ℚ)
    (hh0 : 0 ≤ h) (hhh : h ≤ h') (hh1 : h' ≤ (s.length : ℚ) - 1) :
    interpAt s h ≤ interpAt s h' := by
  have hfl0 : 0 ≤ ⌊h⌋ := Int.floor_nonneg.2 hh0
  have hfl0' : 0 ≤ ⌊h'⌋ := Int.floor_nonneg.2 (hh0.trans hhh)
  have hci : ((⌊h⌋).toNat : ℚ) = (⌊h⌋ : ℚ) := by
    exact_mod_cast congrArg (fun z : ℤ => (z : ℚ)) (Int.toNat_of_nonneg hfl0)
  have hci' : ((⌊h'⌋).toNat : ℚ) = (⌊h'⌋ : ℚ) := by
    exact_mod_cast congrArg (fun z : ℤ => (z : ℚ)) (Int.toNat_of_nonneg hfl0')
  have hile : ((⌊h⌋).toNat : ℚ) ≤ h := by
    rw [hci]
    exact Int.floor_le h
  have hlti : h < ((⌊h⌋).toNat : ℚ) + 1 := by
    rw [hci]
    exact Int.lt_floor_add_one h
  have hile' : ((⌊h'⌋).toNat : ℚ) ≤ h' := by
    rw [hci']
    exact Int.floor_le h'
  have hlti' : h' < ((⌊h'⌋).toNat : ℚ) + 1 := by
    rw [hci']
    exact Int.lt_floor_add_one h'
  have hii : (⌊h⌋).toNat ≤ (⌊h'⌋).toNat :=
    Int.toNat_le_toNat (Int.floor_le_floor hhh)
  have hi'top : (⌊h'⌋).toNat < s.length := by
    have h2 : ((s.length : ℚ) - 1) = (((s.length : ℤ) - 1 : ℤ) : ℚ) := by
      push_cast
      ring
    have h3 := Int.floor_le_floor hh1
    rw [h2, Int.floor_intCast] at h3
    omega
  simp only [interpAt]
  by_cases heq : (⌊h⌋).toNat = (⌊h'⌋).toNat
  · rw [heq]
    by_cases hlt : (⌊h'⌋).toNat + 1 < s.length
    · rw [if_pos hlt, if_pos hlt]
      have hmono : s.getD (⌊h'⌋).toNat 0 ≤ s.getD ((⌊h'⌋).toNat + 1) 0 :=
        sorted_getD_mono s hs _ _ (Nat.le_succ _) hlt
      nlinarith [mul_nonneg (show (0:ℚ) ≤ h' - h by linarith)
        (sub_nonneg.2 hmono)]
    · rw [if_neg hlt, if_neg hlt]
  · have hlt0 : (⌊h⌋).toNat < (⌊h'⌋).toNat := lt_of_le_of_ne hii heq
    have hi1 : (⌊h⌋).toNat + 1 < s.length := by omega
    rw [if_pos hi1]
    have hmono1 : s.getD (⌊h⌋).toNat 0 ≤ s.getD ((⌊h⌋).toNat + 1) 0 :=
      sorted_getD_mono s hs _ _ (Nat.le_succ _) hi1
    have hub : s.getD (⌊h⌋).toNat 0 + (h - ((⌊h⌋).toNat : ℚ)) *
        (s.getD ((⌊h⌋).toNat + 1) 0 - s.getD (⌊h⌋).toNat 0) ≤
        s.getD ((⌊h⌋).toNat + 1) 0 := by
      nlinarith [mul_nonneg (show (0:ℚ) ≤ 1 - (h - ((⌊h⌋).toNat : ℚ)) by linarith)
        (sub_nonneg.2 hmono1)]
    have hmono2 : s.getD ((⌊h⌋).toNat + 1) 0 ≤ s.getD ((⌊h'⌋).toNat) 0 :=
      sorted_getD_mono s hs _ _ (by omega) hi'top
    by_cases hlt' : (⌊h'⌋).toNat + 1 < s.length
    · rw [if_pos hlt']
      have hmono3 : s.getD (⌊h'⌋).toNat 0 ≤ s.getD ((⌊h'⌋).toNat + 1) 0 :=
        sorted_getD_mono s hs _ _ (Nat.le_succ _) hlt'
      have hprod : 0 ≤ (h' - ((⌊h'⌋).toNat : ℚ)) *
          (s.getD ((⌊h'⌋).toNat + 1) 0 - s.getD (⌊h'⌋).toNat 0) :=
        mul_nonneg (by linarith) (sub_nonneg.2 hmono3)
      linarith
    · rw [if_neg hlt']
      linarith

theorem length_sortQ_pos (l : List ℚ) (hl : l ≠ []) : 1 ≤ (sortQ l).length := by
  have hn : (sortQ l).length = l.length := length_sortKey id l
  rw [hn]
  exact List.length_pos.2 hl

theorem quantile_mono (l : List ℚ) (hl : l ≠ []) (p p' : ℚ)
    (h0 : 0 ≤ p) (hpp : p ≤ p') (h1 : p' ≤ 1) :
    quantile p l ≤ quantile p' l := by
  rw [quantile_eq_interpAt, quantile_eq_interpAt]
  have hn1 : (0 : ℚ) ≤ ((sortQ l).length : ℚ) - 1 := by
    have := length_sortQ_pos l hl
    have h2 : (1 : ℚ) ≤ ((sortQ l).length : ℚ) := by exact_mod_cast this
    linarith
  apply interpAt_le_interpAt (sortQ l) (sorted_sortQ l)
  · exact mul_nonneg hn1 h0
  · exact mul_le_mul_of_nonneg_left hpp hn1
  · calc (((sortQ l).length : ℚ) - 1) * p' ≤ (((sortQ l).length : ℚ) - 1) * 1 :=
        mul_le_mul_of_nonneg_left h1 hn1
    _ = ((sortQ l).length : ℚ) - 1 := mul_one _

theorem q1_le_q3 (l : List ℚ) (hl : l ≠ []) : q1 l ≤ q3 l :=
  quantile_mono l hl (1/4) (3/4) (by norm_num) (by norm_num) (by norm_num)

/-- C8: the outlier flag is strict on both IQR fences — flagged iff strictly
below `Q1 − 1.5·IQR` or strictly above `Q3 + 1.5·IQR`; a value equal to
either fence is not flagged. -/
theorem c8_iqr_strict :
    ∀ (l : List ℚ) (x : ℚ), l ≠ [] →
      (isOutlier l x = true ↔
        (x < q1 l - 3/2 * (q3 l - q1 l) ∨ q3 l + 3/2 * (q3 l - q1 l) < x)) ∧
      isOutlier l (upperFence l) = false ∧
      isOutlier l (lowerFence l) = false := by
  intro l x hl
  have hq : q1 l ≤ q3 l := q1_le_q3 l hl
  have hfence : lowerFence l ≤ upperFence l := by
    rw [lowerFence, upperFence, iqr]
    linarith
  refine ⟨?_, ?_, ?_⟩
  · simp [isOutlier, lowerFence, upperFence, iqr]
  · rw [isOutlier]
    simp only [Bool.or_eq_false_iff, decide_eq_false_iff_not, not_lt]
    exact ⟨hfence, le_refl _⟩
  · rw [isOutlier]
    simp only [Bool.or_eq_false_iff, decide_eq_false_iff_not, not_lt]
    exact ⟨le_refl _, hfence⟩

/-- Witness for C8 on the spec's example series. -/
theorem c8_witness :
    (isOutlier [10, 12, 9, 100, 11] 100 = true ↔
      ((100 : ℚ) < q1 [10, 12, 9, 100, 11] -
          3/2 * (q3 [10, 12, 9, 100, 11] - q1 [10, 12, 9, 100, 11]) ∨
        q3 [10, 12, 9, 100, 11] +
          3/2 * (q3 [10, 12, 9, 100, 11] - q1 [10, 12, 9, 100, 11]) < 100)) ∧
    isOutlier [10, 12, 9, 100, 11] (upperFence [10, 12, 9, 100, 11]) = false ∧
    isOutlier [10, 12, 9, 100, 11] (lowerFence [10, 12, 9, 100, 11]) = false :=
  c8_iqr_strict [10, 12, 9, 100, 11] 100 (by decide)

/-! ## Task 2: log1p (C9) and pct_change (C10) -/

/-- C9 counterexample: at volume exactly −1 the log transform produces
`-inf`, which is not a missing value — the claim "missing for every
x ≤ −1" fails at the boundary. -/
theorem c9_counterexample :
    log1p (-1) = RVal.ninf ∧ RVal.ninf ≠ RVal.nan := by
  constructor
  · rw [log1p, if_neg (lt_irrefl (-1 : ℚ)), if_pos rfl]
  · intro h
    exact RVal.noConfusion h

/-- C9 (amended): `log1p` maps x to ln(1+x) for x > −1, to −infinity at
x = −1, and to missing (NaN) for x < −1; it is total (never raises). -/
theorem c9_log1p_cases :
    ∀ x : ℚ,
      (-1 < x → log1p x = RVal.val (Real.log ((1 + x : ℚ) : ℝ))) ∧
      (x = -1 → log1p x = RVal.ninf) ∧
      (x < -1 → log1p x = RVal.nan) := by
  intro x
  refine ⟨?_, ?_, ?_⟩
  · intro h
    rw [log1p, if_pos h]
  · intro h
    subst h
    rw [log1p, if_neg (lt_irrefl (-1 : ℚ)), if_pos rfl]
  · intro h
    rw [log1p, if_neg (by linarith), if_neg (by intro he; rw [he] at h; exact lt_irrefl _ h)]

/-- Witness for the amended C9. -/
theorem c9_witness : log1p (-2) = RVal.nan :=
  (c9_log1p_cases (-2)).2.2 (by norm_num)

/-- C10: the percent-change division is unguarded — whenever the price k
rows earlier is 0 and the current price is non-zero, the return is an
infinity (positive or negative), not missing and not finite. -/
theorem c10_unguarded_division :
    ∀ (l : List ℚ) (k i : ℕ), k ≤ i → i < l.length →
      l.getD (i - k) 0 = 0 → l.getD i 0 ≠ 0 →
      (pctChange k l)[i]? = some RVal.pinf ∨
      (pctChange k l)[i]? = some RVal.ninf := by
  intro l k i hk hi h0 hne
  have hidx : (pctChange k l)[i]? =
      some (if i < k then RVal.nan
        else fdiv (l.getD i 0 - l.getD (i - k) 0) (l.getD (i - k) 0)) := by
    rw [pctChange, List.getElem?_map, List.getElem?_range hi, Option.map_some']
  rw [hidx, if_neg (by omega), h0]
  have ha : l.getD i 0 - 0 = l.getD i 0 := sub_zero _
  rcases lt_trichotomy (l.getD i 0) 0 with hlt | heq | hgt
  · right
    rw [fdiv, ha, if_pos rfl, if_neg hne, if_neg (not_lt.2 (le_of_lt hlt))]
  · exact absurd heq hne
  · left
    rw [fdiv, ha, if_pos rfl, if_neg hne, if_pos hgt]

/-- Witness for C10: series [0, 5], 1-day return at the second row is +inf. -/
theorem c10_witness :
    (pctChange 1 [0, 5])[1]? = some RVal.pinf ∨
    (pctChange 1 [0, 5])[1]? = some RVal.ninf :=
  c10_unguarded_division [0, 5] 1 1 (le_refl 1) (by norm_num) (by decide) (by decide)

end AIPP
